import Mathlib

/-!
# Verification of the `graphics_pipeline` core

A shallow embedding, in Lean 4, of the core data structures and operations of
the `graphics_pipeline` repository: the series-specification primitives
(`src/primitives/mod.rs`), the dual-indexed `SeriesSpecMap`
(`src/series_to_disk/mod.rs`), and the file-resource locator
(`src/file_resources/mod.rs`, `src/file_resources/impls.rs`).

Rust `String`s are embedded as Lean `String`s, Rust `BTreeMap`s as key-sorted
association lists, paths as lists of components, and the filesystem as a finite
list of directories each holding a list of file names.  Fallible operations
(`anyhow::Result`) are embedded as `Except` with a structured error type that
records the data interpolated into the source's error messages.
-/

namespace GraphicsPipeline

-- ====================================================================================
-- Primitives (src/primitives/mod.rs)
-- ====================================================================================

/-- `DataType` from `src/primitives/mod.rs`: `pub enum DataType { U, Cpi, Inf }`.
The derived Rust `Ord` orders variants in declaration order. -/
inductive DataType where
  | U
  | Cpi
  | Inf
deriving DecidableEq, Repr

/-- Declaration-order rank, mirroring the Rust `derive(Ord)` on `DataType`. -/
def DataType.rank : DataType → Nat
  | .U => 0
  | .Cpi => 1
  | .Inf => 2

/-- The `Display` impl of `DataType` (`src/primitives/mod.rs`). -/
def DataType.toString : DataType → String
  | .U => "u"
  | .Cpi => "cpi"
  | .Inf => "inf"

/-- Modelled from the spec: the `countries` module is declared in `src/lib.rs`
(`pub mod countries;`) but its source file is not under `src/`.  Per the spec,
`Region`/`Country` is a closed enumeration of countries with a canonical
filesystem-safe name form, ordered (as a Rust derived `Ord`) by declaration.
Only variants exercised by the code's tests and doc examples are included; every
claim below uses `Country` purely as an ordered key, so the exact variant set is
immaterial. -/
inductive Country where
  | Australia
  | Belgium
  | Japan
  | UnitedStates
deriving DecidableEq, Repr

/-- Modelled from the spec: declaration-order rank standing in for the missing
Rust `derive(Ord)` on `Country`. -/
def Country.rank : Country → Nat
  | .Australia => 0
  | .Belgium => 1
  | .Japan => 2
  | .UnitedStates => 3

/-- Modelled from the spec: the canonical filesystem-safe form of a country
name (`Country::as_filepath`, whose source file is not under `src/`).  The
claims below quantify over the filesystem, so only injectivity-free plumbing
depends on these strings. -/
def Country.as_filepath : Country → String
  | .Australia => "australia"
  | .Belgium => "belgium"
  | .Japan => "japan"
  | .UnitedStates => "united_states"

/-- `SeriesId` from `src/primitives/mod.rs`: a newtype over `String`
(`pub struct SeriesId(String)`), compared by the underlying string. -/
structure SeriesId where
  id : String
deriving DecidableEq, Repr

/-- `SeriesId::stem` (`src/primitives/mod.rs`):
`self.0.split('_').next().unwrap()` — the first fragment produced by splitting
on `'_'`, i.e. the longest prefix of the string containing no underscore. -/
def SeriesId.stem (s : SeriesId) : SeriesId :=
  ⟨⟨s.id.data.takeWhile (fun c => c ≠ '_')⟩⟩

-- ====================================================================================
-- SeriesSpec (src/series_spec/mod.rs)
-- ====================================================================================

/-- `SeriesSpec` from `src/series_spec/mod.rs`: the record
`{ data_type: DataType, country: Country, series_id: SeriesId }`. -/
structure SeriesSpec where
  data_type : DataType
  country : Country
  series_id : SeriesId
deriving DecidableEq, Repr

/-- The bucket key of a `SeriesSpec`: the pair `(data_type, country)` used to
key `SeriesSpecMap.map`. -/
def SeriesSpec.key (s : SeriesSpec) : DataType × Country :=
  (s.data_type, s.country)

-- ====================================================================================
-- BTreeMap embedding: key-sorted association lists
-- ====================================================================================

/-- Strict lexicographic order on bucket keys, mirroring the Rust `Ord` of
`(DataType, Country)` tuples (derived `Ord`s compared lexicographically). -/
def keyLt (a b : DataType × Country) : Bool :=
  a.1.rank < b.1.rank ∨ (a.1.rank = b.1.rank ∧ a.2.rank < b.2.rank)

/-- Strict order on `SeriesId`s, mirroring the Rust `Ord` on `String`
(lexicographic). -/
def sidLt (a b : SeriesId) : Bool :=
  a.id < b.id

/-- `BTreeMap::get`: the value stored at `k`, if any.  On the sorted lists
maintained by `btInsert` this scans for the unique entry with key `k`. -/
def btGet {κ α : Type} [DecidableEq κ] (k : κ) : List (κ × α) → Option α
  | [] => none
  | (k', v') :: rest => if k = k' then some v' else btGet k rest

/-- `BTreeMap::insert`: replace the value at `k` when present, otherwise insert
`(k, v)` at its place in the key order `lt`. -/
def btInsert {κ α : Type} [DecidableEq κ] (lt : κ → κ → Bool) (k : κ) (v : α) :
    List (κ × α) → List (κ × α)
  | [] => [(k, v)]
  | (k', v') :: rest =>
    if k = k' then (k, v) :: rest
    else if lt k k' then (k, v) :: (k', v') :: rest
    else (k', v') :: btInsert lt k v rest

-- ====================================================================================
-- SeriesSpecMap (src/series_to_disk/mod.rs)
-- ====================================================================================

/-- `SeriesSpecMap` from `src/series_to_disk/mod.rs`:
a `BTreeMap<(DataType, Country), Vec<SeriesSpec>>` of buckets together with a
reverse `BTreeMap<SeriesId, (DataType, Country)>` for lookup by identifier. -/
structure SeriesSpecMap where
  map : List ((DataType × Country) × List SeriesSpec)
  reverse : List (SeriesId × (DataType × Country))
deriving DecidableEq, Repr

namespace SeriesSpecMap

/-- `SeriesSpecMap::new`: both maps empty. -/
def new : SeriesSpecMap :=
  { map := [], reverse := [] }

/-- `SeriesSpecMap::insert`: look up the bucket keyed by
`(series_spec.data_type, series_spec.country)`; if absent, insert a fresh
one-element bucket, and if present, `push` the record onto the bucket's `Vec`;
in both cases (re-)insert the reverse mapping `series_id ↦ key`. -/
def insert (m : SeriesSpecMap) (series_spec : SeriesSpec) : SeriesSpecMap :=
  match btGet series_spec.key m.map with
  | none =>
    { map := btInsert keyLt series_spec.key [series_spec] m.map
      reverse := btInsert sidLt series_spec.series_id series_spec.key m.reverse }
  | some value =>
    { map := btInsert keyLt series_spec.key (value ++ [series_spec]) m.map
      reverse := btInsert sidLt series_spec.series_id series_spec.key m.reverse }

/-- `SeriesSpecMap::get_series_spec`: follow the reverse map to the bucket key,
fetch the bucket (the source `unwrap`s here, which cannot fail on any map built
by `insert`; a missing bucket is embedded as `none`), and return the first
record in the bucket whose `series_id` matches. -/
def get_series_spec (m : SeriesSpecMap) (series_id : SeriesId) : Option SeriesSpec :=
  match btGet series_id m.reverse with
  | none => none
  | some key =>
    match btGet key m.map with
    | none => none
    | some seriess => seriess.find? (fun series => series.series_id = series_id)

/-- `FromIterator<SeriesSpec> for SeriesSpecMap`: fold `insert` over the
records, starting from `new`. -/
def ofList (l : List SeriesSpec) : SeriesSpecMap :=
  l.foldl insert new

end SeriesSpecMap

-- ====================================================================================
-- Reconciler: resume_from (spec §4.3; not implemented under src/)
-- ====================================================================================

/-- The Reconciler's error kind (spec §7): `UndefinedResumePoint(series_id)`. -/
inductive ReconcileError where
  | UndefinedResumePoint (series_id : SeriesId)
deriving DecidableEq, Repr

/-- The records of a `SeriesSpecMap` flattened in its deterministic bucket
order: buckets in `BTreeMap` key order (the order `btInsert keyLt` maintains),
each bucket in declaration order. -/
def SeriesSpecMap.inOrder (m : SeriesSpecMap) : List SeriesSpec :=
  (m.map.map (fun p => p.2)).flatten

/-- Walk a record sequence and return everything strictly after the first
record carrying `last`, or `none` when no record carries it. -/
def resumeAfter (last : SeriesId) : List SeriesSpec → Option (List SeriesSpec)
  | [] => none
  | s :: rest => if s.series_id = last then some rest else resumeAfter last rest

/-- Modelled from the spec: `resume_from` (§4.3) is not implemented under
`src/` — only a commented-out `resume_write` sketch remains in
`src/series_to_disk/mod.rs`.  Per the spec's words: produce the remaining work
starting strictly after `last_series_id` in the Spec Index's deterministic
bucket order, and report `UndefinedResumePoint` when `last_series_id` is not
present in the index rather than defaulting to the start or the end. -/
def SeriesSpecMap.resume_from (m : SeriesSpecMap) (last_series_id : SeriesId) :
    Except ReconcileError (List SeriesSpec) :=
  match resumeAfter last_series_id m.inOrder with
  | none => .error (.UndefinedResumePoint last_series_id)
  | some rest => .ok rest

-- ====================================================================================
-- Paths and the filesystem model (src/file_resources/mod.rs plumbing)
-- ====================================================================================

/-- A filesystem path, embedded as its list of components (what Rust's
`Path::components` yields); `join` is append. -/
abbrev Path := List String

/-- The part of `lastExtAux`'s input after its last `'.'`, when it has one. -/
def lastExtAux : List Char → Option (List Char)
  | [] => none
  | c :: rest =>
    match lastExtAux rest with
    | some e => some e
    | none => if c = '.' then some rest else none

/-- Rust `Path::extension` restricted to one file-name component: `none` when
the name has no `'.'` or when its only `'.'` is the leading character
(hidden-file rule); otherwise the portion after the final `'.'`. -/
def extensionOfName (name : String) : Option String :=
  match name.data with
  | [] => none
  | _ :: rest => (lastExtAux rest).map (fun l => ⟨l⟩)

/-- Rust `Path::extension`: the extension of the final component. -/
def pathExtension (pb : Path) : Option String :=
  match pb.getLast? with
  | none => none
  | some name => extensionOfName name

/-- Rust `Path::ends_with`: the child's components are a suffix of the path's
components. -/
def pathEndsWith (pb child : Path) : Bool :=
  child.isSuffixOf pb

/-- The directory tree visible to the locator: each existing directory paired
with the names of the entries directly inside it (read-only, as in the source:
the locator never mutates the filesystem). -/
structure FileSystem where
  dirs : List (Path × List String)

/-- `std::fs::read_dir`: the listing of `d`, or `none` when `d` does not
exist. -/
def FileSystem.readDir (fs : FileSystem) (d : Path) : Option (List String) :=
  (fs.dirs.find? (fun p => p.1 = d)).map (fun p => p.2)

/-- A path names an existing file when its final component is listed in its
parent directory. -/
def FileSystem.fileExists (fs : FileSystem) (p : Path) : Bool :=
  match p.getLast?, fs.readDir p.dropLast with
  | some name, some listing => listing.contains name
  | _, _ => false

/-- The structured content of the locator's error values
(`anyhow!`/`bail!` messages in the source, §7 of the spec): each constructor
records exactly the data the source interpolates into the message. -/
inductive ResError where
  | DirectoryNotFound (path : Path)
  | ExtensionContamination (dir : Path) (offending : String)
  | FileNotFound (name : String) (dir : Path)
  | Io (path : Path)
deriving DecidableEq, Repr

/-- `join_paths` (src/file_resources/mod.rs): join the segments onto `root` and
canonicalize, failing with the directory-not-found error when the result does
not exist. -/
def join_paths (fs : FileSystem) (root : Path) (paths : List String) : Except ResError Path :=
  let path := root ++ paths
  if (fs.readDir path).isSome then .ok path else .error (.DirectoryNotFound path)

-- ====================================================================================
-- Resources (src/file_resources/mod.rs)
-- ====================================================================================

/-- `Resources` (src/file_resources/mod.rs): the ordered collection of paths
returned from listing one directory. -/
structure Resources where
  paths : List Path
deriving DecidableEq, Repr

/-- `Resources::filter_by_ext`: keep the paths whose extension is present and
permitted; paths with no extension (or, in the source, non-UTF-8 extensions)
are skipped. -/
def Resources.filter_by_ext (r : Resources) (ext : List String) : Resources :=
  ⟨r.paths.filter (fun pb =>
    match pathExtension pb with
    | none => false
    | some e => ext.contains e)⟩

/-- `Resources::only_ext`: scan the collection in order and `bail!` at the
first path whose extension is present but not permitted; the error names the
parent directory of the collection's first path (`self.0[0].parent()`) and the
offending extension.  Paths with no extension are skipped (`continue`). -/
def Resources.only_ext (r : Resources) (ext : List String) : Except ResError Unit :=
  match r.paths.find? (fun pb =>
      match pathExtension pb with
      | none => false
      | some e => !(ext.contains e)) with
  | none => .ok ()
  | some pb =>
    .error (.ExtensionContamination ((r.paths.headD []).dropLast) ((pathExtension pb).getD ""))

/-- `IntoResources::all_files_in_dir` (default trait method): resolve the
directory, list it with `read_dir` (an unreadable listing is an I/O error), and
return every entry joined onto the directory. -/
def allFilesInDir (dir : Except ResError Path) (fs : FileSystem) : Except ResError Resources :=
  match dir with
  | .error e => .error e
  | .ok d =>
    match fs.readDir d with
    | none => .error (.Io d)
    | some listing => .ok ⟨listing.map (fun name => d ++ [name])⟩

/-- The `IntoResources` trait, embedded as the record of the two methods every
concrete resource kind supplies; the default methods (`has_file`, ...) are
defined generically over this record, as in the source. -/
structure ResourceKind where
  dirOf : FileSystem → Path → Except ResError Path
  intoResources : FileSystem → Path → Except ResError Resources

/-- `IntoResources::has_file` (default trait method): resolve the kind's
resources and report whether any of them `ends_with` the sought file. -/
def ResourceKind.has_file (k : ResourceKind) (fs : FileSystem) (data_root : Path)
    (file : Path) : Except ResError Bool :=
  match k.intoResources fs data_root with
  | .error e => .error e
  | .ok resources => .ok (resources.paths.any (fun pb => pathEndsWith pb file))

-- ====================================================================================
-- Concrete resource kinds (src/file_resources/impls.rs)
-- ====================================================================================

/-- `CsvRawData` (src/file_resources/impls.rs): the raw-data bucket for one
`(data_type, country)` pair. -/
structure CsvRawData where
  country : Country
  data_type : DataType

/-- `CsvRawData::dir`: `root/raw_data/<data_type>/<country>`, canonicalized. -/
def CsvRawData.dir (cd : CsvRawData) (fs : FileSystem) (data_root : Path) :
    Except ResError Path :=
  let path := data_root ++ ["raw_data", cd.data_type.toString, cd.country.as_filepath]
  if (fs.readDir path).isSome then .ok path else .error (.DirectoryNotFound path)

/-- `CsvRawData::into_resources`: list the directory, assert it holds only
`csv`/`meta` extensions, then return the `csv` files. -/
def CsvRawData.into_resources (cd : CsvRawData) (fs : FileSystem) (data_root : Path) :
    Except ResError Resources :=
  match allFilesInDir (cd.dir fs data_root) fs with
  | .error e => .error e
  | .ok all =>
    match all.only_ext ["csv", "meta"] with
    | .error e => .error e
    | .ok _ => .ok (all.filter_by_ext ["csv"])

/-- `PidGraphicsJs::dir`: `root/pid_graphics/js`, canonicalized. -/
def PidGraphicsJs.dir (fs : FileSystem) (data_root : Path) : Except ResError Path :=
  join_paths fs data_root ["pid_graphics", "js"]

/-- `PidGraphicsJs::into_resources`: list the directory, assert it holds only
`js` extensions, then return the `js` files. -/
def PidGraphicsJs.into_resources (fs : FileSystem) (data_root : Path) :
    Except ResError Resources :=
  match allFilesInDir (PidGraphicsJs.dir fs data_root) fs with
  | .error e => .error e
  | .ok all =>
    match all.only_ext ["js"] with
    | .error e => .error e
    | .ok _ => .ok (all.filter_by_ext ["js"])

/-- `PidGraphicCss::dir`: `root/pid_graphics/css`, canonicalized. -/
def PidGraphicCss.dir (fs : FileSystem) (data_root : Path) : Except ResError Path :=
  join_paths fs data_root ["pid_graphics", "css"]

/-- `PidGraphicCss::into_resources`: return the single path
`dir(root)/style.css` — the source joins the name onto the resolved directory
without checking that the file itself exists. -/
def PidGraphicCss.into_resources (fs : FileSystem) (data_root : Path) :
    Except ResError Resources :=
  match PidGraphicCss.dir fs data_root with
  | .error e => .error e
  | .ok d => .ok ⟨[d ++ ["style.css"]]⟩

/-- `PidGraphicsFavIcon::dir`: `root/pid_graphics/favicon`, canonicalized. -/
def PidGraphicsFavIcon.dir (fs : FileSystem) (data_root : Path) : Except ResError Path :=
  join_paths fs data_root ["pid_graphics", "favicon"]

/-- `PidGraphicsFavIcon::into_resources`: return the single path
`dir(root)/favicon.png`, again without checking that the file exists. -/
def PidGraphicsFavIcon.into_resources (fs : FileSystem) (data_root : Path) :
    Except ResError Resources :=
  match PidGraphicsFavIcon.dir fs data_root with
  | .error e => .error e
  | .ok d => .ok ⟨[d ++ ["favicon.png"]]⟩

-- ====================================================================================
-- Helper lemmas: btGet / btInsert
-- ====================================================================================

theorem btGet_btInsert_self {κ α : Type} [DecidableEq κ] (lt : κ → κ → Bool) (k : κ)
    (v : α) (m : List (κ × α)) : btGet k (btInsert lt k v m) = some v := by
  induction m with
  | nil => simp [btInsert, btGet]
  | cons p rest ih =>
    obtain ⟨k', v'⟩ := p
    by_cases h : k = k'
    · simp [btInsert, h, btGet]
    · by_cases h2 : lt k k'
      · simp [btInsert, h, h2, btGet]
      · simp [btInsert, h, h2, btGet, ih]

theorem btGet_btInsert_ne {κ α : Type} [DecidableEq κ] (lt : κ → κ → Bool) {j k : κ}
    (v : α) (m : List (κ × α)) (hjk : j ≠ k) :
    btGet j (btInsert lt k v m) = btGet j m := by
  induction m with
  | nil => simp [btInsert, btGet, hjk]
  | cons p rest ih =>
    obtain ⟨k', v'⟩ := p
    by_cases h : k = k'
    · subst h
      simp [btInsert, btGet, hjk]
    · by_cases h2 : lt k k'
      · simp [btInsert, h, h2, btGet, hjk]
      · by_cases h3 : j = k'
        · simp [btInsert, h, h2, btGet, h3]
        · simp [btInsert, h, h2, btGet, h3, ih]

theorem find?_eq_some_of_mem_unique {α : Type} (p : α → Bool) (a : α) :
    ∀ (l : List α), a ∈ l → p a = true → (∀ x ∈ l, p x = true → x = a) →
      l.find? p = some a
  | [], ha, _, _ => absurd ha (List.not_mem_nil a)
  | b :: t, ha, hpa, huniq => by
    by_cases hb : p b = true
    · have hba : b = a := huniq b (List.mem_cons_self b t) hb
      subst hba
      simp [List.find?_cons_of_pos _ hb]
    · have hab : a ≠ b := fun h => hb (h ▸ hpa)
      have hat : a ∈ t := by
        rcases List.mem_cons.mp ha with h | h
        · exact absurd h hab
        · exact h
      rw [List.find?_cons_of_neg _ (by simpa using hb)]
      exact find?_eq_some_of_mem_unique p a t hat hpa
        (fun x hx hpx => huniq x (List.mem_cons_of_mem b hx) hpx)

-- ====================================================================================
-- Invariants of SeriesSpecMap under insertion
-- ====================================================================================

/-- Every record stored in a bucket carries that bucket's key. -/
def BucketInv (m : SeriesSpecMap) : Prop :=
  ∀ k v, btGet k m.map = some v → ∀ x ∈ v, x.key = k

theorem bucketInv_new : BucketInv SeriesSpecMap.new := by
  intro k v h
  simp [SeriesSpecMap.new, btGet] at h

theorem bucketInv_insert {m : SeriesSpecMap} (hm : BucketInv m) (s : SeriesSpec) :
    BucketInv (m.insert s) := by
  intro k v hkv x hx
  unfold SeriesSpecMap.insert at hkv
  cases hbg : btGet s.key m.map with
  | none =>
    rw [hbg] at hkv
    simp only at hkv
    by_cases hk : k = s.key
    · subst hk
      rw [btGet_btInsert_self] at hkv
      obtain rfl : v = [s] := by injection hkv with h; exact h.symm
      obtain rfl : x = s := List.mem_singleton.mp hx
      rfl
    · rw [btGet_btInsert_ne _ _ _ hk] at hkv
      exact hm k v hkv x hx
  | some value =>
    rw [hbg] at hkv
    simp only at hkv
    by_cases hk : k = s.key
    · subst hk
      rw [btGet_btInsert_self] at hkv
      obtain rfl : v = value ++ [s] := by injection hkv with h; exact h.symm
      rcases List.mem_append.mp hx with h | h
      · exact hm _ _ hbg x h
      · obtain rfl : x = s := List.mem_singleton.mp h
        rfl
    · rw [btGet_btInsert_ne _ _ _ hk] at hkv
      exact hm k v hkv x hx

theorem bucketInv_foldl :
    ∀ (l : List SeriesSpec) (m : SeriesSpecMap), BucketInv m →
      BucketInv (l.foldl SeriesSpecMap.insert m)
  | [], _, h => h
  | s :: rest, m, h => bucketInv_foldl rest (m.insert s) (bucketInv_insert h s)

theorem bucketInv_ofList (l : List SeriesSpec) : BucketInv (SeriesSpecMap.ofList l) :=
  bucketInv_foldl l SeriesSpecMap.new bucketInv_new

-- ====================================================================================
-- C1
-- ====================================================================================

/-- C1: round trip of the Spec Index — for every `SeriesSpec` `s` inserted into
a `SeriesSpecMap` built by inserts from `new` (in particular when a record with
the same `series_id` was inserted earlier), `get_series_spec s.series_id` on the
resulting map returns `some s`, the most recently inserted record for that
identifier. -/
theorem insert_get_series_spec_round_trip (l : List SeriesSpec) (s : SeriesSpec) :
    ((SeriesSpecMap.ofList l).insert s).get_series_spec s.series_id = some s := by
  have hInv : BucketInv (SeriesSpecMap.ofList l) := bucketInv_ofList l
  set m := SeriesSpecMap.ofList l with hm
  unfold SeriesSpecMap.insert
  cases hbg : btGet s.key m.map with
  | none =>
    unfold SeriesSpecMap.get_series_spec
    simp only
    rw [btGet_btInsert_self]
    simp only
    rw [btGet_btInsert_self]
    simp [List.find?]
  | some value =>
    unfold SeriesSpecMap.get_series_spec
    simp only
    rw [btGet_btInsert_self]
    simp only
    rw [btGet_btInsert_self]
    simp only
    apply find?_eq_some_of_mem_unique
    · exact List.mem_append.mpr (Or.inr (List.mem_singleton.mpr rfl))
    · simp
    · intro x hx hpx
      have hsid : x.series_id = s.series_id := by simpa using hpx
      rcases List.mem_append.mp hx with h | h
      · have hkey : x.key = s.key := hInv _ _ hbg x h
        have h1 : x.data_type = s.data_type := congrArg Prod.fst hkey
        have h2 : x.country = s.country := congrArg Prod.snd hkey
        cases x
        cases s
        simp_all [SeriesSpec.key]
      · exact List.mem_singleton.mp h

-- ====================================================================================
-- Unfolding lemmas for insert
-- ====================================================================================

theorem insert_map_none {m : SeriesSpecMap} {s : SeriesSpec}
    (h : btGet s.key m.map = none) :
    (m.insert s).map = btInsert keyLt s.key [s] m.map := by
  unfold SeriesSpecMap.insert
  rw [h]

theorem insert_map_some {m : SeriesSpecMap} {s : SeriesSpec} {v : List SeriesSpec}
    (h : btGet s.key m.map = some v) :
    (m.insert s).map = btInsert keyLt s.key (v ++ [s]) m.map := by
  unfold SeriesSpecMap.insert
  rw [h]

theorem insert_reverse (m : SeriesSpecMap) (s : SeriesSpec) :
    (m.insert s).reverse = btInsert sidLt s.series_id s.key m.reverse := by
  unfold SeriesSpecMap.insert
  cases h : btGet s.key m.map <;> simp

-- ====================================================================================
-- C5
-- ====================================================================================

/-- C5: insertion order is declaration order — inserting two records with
distinct `series_id`s into the same `(DataType, Country)` bucket appends each
at the end of the bucket's sequence, so the bucket reads
"previous contents, then first inserted, then second inserted", never sorted
by identifier. -/
theorem insert_preserves_declaration_order (m : SeriesSpecMap) (s1 s2 : SeriesSpec)
    (hkey : s1.key = s2.key) (_hid : s1.series_id ≠ s2.series_id) :
    btGet s2.key ((m.insert s1).insert s2).map =
      some ((btGet s1.key m.map).getD [] ++ [s1, s2]) := by
  cases hbg : btGet s1.key m.map with
  | none =>
    have h1 : btGet s2.key (m.insert s1).map = some [s1] := by
      rw [← hkey, insert_map_none hbg, btGet_btInsert_self]
    have h2 : ((m.insert s1).insert s2).map =
        btInsert keyLt s2.key ([s1] ++ [s2]) (m.insert s1).map := insert_map_some h1
    rw [h2, btGet_btInsert_self]
    simp
  | some v =>
    have h1 : btGet s2.key (m.insert s1).map = some (v ++ [s1]) := by
      rw [← hkey, insert_map_some hbg, btGet_btInsert_self]
    have h2 : ((m.insert s1).insert s2).map =
        btInsert keyLt s2.key ((v ++ [s1]) ++ [s2]) (m.insert s1).map := insert_map_some h1
    rw [h2, btGet_btInsert_self]
    simp

/-- Witness for C5, the spec's own example: inserting `("U","Australia","second")`
then `("U","Australia","first")` into an empty index yields bucket order
`[second, first]`, not lexicographic order. -/
theorem insert_preserves_declaration_order_witness :
    (SeriesSpec.key ⟨.U, .Australia, ⟨"second"⟩⟩ = SeriesSpec.key ⟨.U, .Australia, ⟨"first"⟩⟩ ∧
      SeriesSpec.series_id ⟨.U, .Australia, ⟨"second"⟩⟩ ≠
        SeriesSpec.series_id ⟨.U, .Australia, ⟨"first"⟩⟩) ∧
    btGet (SeriesSpec.key ⟨.U, .Australia, ⟨"first"⟩⟩)
        ((SeriesSpecMap.new.insert ⟨.U, .Australia, ⟨"second"⟩⟩).insert
          ⟨.U, .Australia, ⟨"first"⟩⟩).map =
      some [⟨.U, .Australia, ⟨"second"⟩⟩, ⟨.U, .Australia, ⟨"first"⟩⟩] :=
  ⟨⟨by decide, by decide⟩, by
    have h := insert_preserves_declaration_order SeriesSpecMap.new
      ⟨.U, .Australia, ⟨"second"⟩⟩ ⟨.U, .Australia, ⟨"first"⟩⟩ (by decide) (by decide)
    simpa using h⟩

-- ====================================================================================
-- C2
-- ====================================================================================

/-- A record whose `series_id` is already present, used to probe duplicate
insertion. -/
def cexSpecA : SeriesSpec := ⟨.U, .Australia, ⟨"a"⟩⟩

/-- C2 counterexample: with `cexSpecA`'s identifier already present in the
reverse map, a second `insert` of the same record does not leave the bucket's
length unchanged — the bucket grows from one entry to two, refuting in-place
replacement. -/
theorem insert_duplicate_appends_counterexample :
    btGet cexSpecA.series_id (SeriesSpecMap.new.insert cexSpecA).reverse =
        some cexSpecA.key ∧
    (btGet cexSpecA.key ((SeriesSpecMap.new.insert cexSpecA).insert cexSpecA).map).map
        List.length ≠
      (btGet cexSpecA.key (SeriesSpecMap.new.insert cexSpecA).map).map List.length := by
  exact ⟨by decide, by decide⟩

/-- C2 amended: `insert` is not idempotent by identity — when the record's
bucket already exists (in particular when its `series_id` is already present),
`insert` appends the record at the end of the bucket's sequence, growing the
bucket by one and leaving earlier entries in place, and overwrites the reverse
mapping; it never replaces in place. -/
theorem insert_existing_bucket_appends (m : SeriesSpecMap) (s : SeriesSpec)
    (v : List SeriesSpec) (hbg : btGet s.key m.map = some v) :
    btGet s.key (m.insert s).map = some (v ++ [s]) ∧
    btGet s.series_id (m.insert s).reverse = some s.key := by
  rw [insert_map_some hbg, insert_reverse]
  exact ⟨btGet_btInsert_self _ _ _ _, btGet_btInsert_self _ _ _ _⟩

/-- Witness for the amended C2: a duplicate insert of `cexSpecA` turns the
one-entry bucket into `[cexSpecA, cexSpecA]`. -/
theorem insert_existing_bucket_appends_witness :
    btGet cexSpecA.key (SeriesSpecMap.new.insert cexSpecA).map = some [cexSpecA] ∧
    btGet cexSpecA.key ((SeriesSpecMap.new.insert cexSpecA).insert cexSpecA).map =
      some [cexSpecA, cexSpecA] :=
  ⟨by decide, by
    have h := insert_existing_bucket_appends (SeriesSpecMap.new.insert cexSpecA)
      cexSpecA [cexSpecA] (by decide)
    simpa using h.1⟩

-- ====================================================================================
-- C3
-- ====================================================================================

/-- A record carrying identifier `"x"` in the `(U, Australia)` bucket. -/
def c3SpecA : SeriesSpec := ⟨.U, .Australia, ⟨"x"⟩⟩

/-- A record carrying the same identifier `"x"` in the `(Cpi, Belgium)`
bucket. -/
def c3SpecB : SeriesSpec := ⟨.Cpi, .Belgium, ⟨"x"⟩⟩

/-- C3 counterexample: after inserting the same identifier under two different
bucket keys, the bucket `(U, Australia)` still contains a record with id `"x"`,
yet the reverse map sends `"x"` to `(Cpi, Belgium)` — the forward direction of
reverse-index consistency fails on a map reachable from `new` by inserts. -/
theorem reverse_index_consistency_counterexample :
    btGet c3SpecA.key (SeriesSpecMap.ofList [c3SpecA, c3SpecB]).map = some [c3SpecA] ∧
    c3SpecA ∈ [c3SpecA] ∧
    btGet c3SpecA.series_id (SeriesSpecMap.ofList [c3SpecA, c3SpecB]).reverse ≠
      some c3SpecA.key := by
  exact ⟨by decide, by decide, by decide⟩

/-- A record is stored somewhere in the index's buckets. -/
def memRecords (x : SeriesSpec) (m : SeriesSpecMap) : Prop :=
  ∃ k v, btGet k m.map = some v ∧ x ∈ v

theorem memRecords_insert {x : SeriesSpec} {m : SeriesSpecMap} {s : SeriesSpec}
    (h : memRecords x (m.insert s)) : memRecords x m ∨ x = s := by
  obtain ⟨k, v, hkv, hx⟩ := h
  cases hbg : btGet s.key m.map with
  | none =>
    rw [insert_map_none hbg] at hkv
    by_cases hk : k = s.key
    · subst hk
      rw [btGet_btInsert_self] at hkv
      obtain rfl : v = [s] := by injection hkv with h; exact h.symm
      exact Or.inr (List.mem_singleton.mp hx)
    · rw [btGet_btInsert_ne _ _ _ hk] at hkv
      exact Or.inl ⟨k, v, hkv, hx⟩
  | some value =>
    rw [insert_map_some hbg] at hkv
    by_cases hk : k = s.key
    · subst hk
      rw [btGet_btInsert_self] at hkv
      obtain rfl : v = value ++ [s] := by injection hkv with h; exact h.symm
      rcases List.mem_append.mp hx with h | h
      · exact Or.inl ⟨s.key, value, hbg, h⟩
      · exact Or.inr (List.mem_singleton.mp h)
    · rw [btGet_btInsert_ne _ _ _ hk] at hkv
      exact Or.inl ⟨k, v, hkv, hx⟩

/-- Reverse-map soundness: every reverse entry names a bucket holding a record
with that identifier. -/
def RevSound (m : SeriesSpecMap) : Prop :=
  ∀ sid k, btGet sid m.reverse = some k →
    ∃ v, btGet k m.map = some v ∧ ∃ x ∈ v, x.series_id = sid

/-- Bucket soundness: every stored record's identifier maps back, through the
reverse map, to the bucket holding it. -/
def MapSound (m : SeriesSpecMap) : Prop :=
  ∀ k v, btGet k m.map = some v → ∀ x ∈ v, btGet x.series_id m.reverse = some k

theorem revSound_new : RevSound SeriesSpecMap.new := by
  intro sid k h
  simp [SeriesSpecMap.new, btGet] at h

theorem revSound_insert {m : SeriesSpecMap} (hm : RevSound m) (s : SeriesSpec) :
    RevSound (m.insert s) := by
  intro sid k h
  rw [insert_reverse] at h
  by_cases hsid : sid = s.series_id
  · subst hsid
    rw [btGet_btInsert_self] at h
    obtain rfl : k = s.key := by injection h with h; exact h.symm
    cases hbg : btGet s.key m.map with
    | none =>
      refine ⟨[s], ?_, s, List.mem_singleton.mpr rfl, rfl⟩
      rw [insert_map_none hbg, btGet_btInsert_self]
    | some value =>
      refine ⟨value ++ [s], ?_, s, List.mem_append.mpr (Or.inr (List.mem_singleton.mpr rfl)), rfl⟩
      rw [insert_map_some hbg, btGet_btInsert_self]
  · rw [btGet_btInsert_ne _ _ _ hsid] at h
    obtain ⟨v, hv, x, hxv, hxs⟩ := hm sid k h
    cases hbg : btGet s.key m.map with
    | none =>
      by_cases hk : k = s.key
      · subst hk
        rw [hbg] at hv
        cases hv
      · exact ⟨v, by rw [insert_map_none hbg, btGet_btInsert_ne _ _ _ hk]; exact hv,
          x, hxv, hxs⟩
    | some value =>
      by_cases hk : k = s.key
      · subst hk
        rw [hbg] at hv
        have hvv : value = v := by injection hv
        refine ⟨v ++ [s], ?_, x, List.mem_append.mpr (Or.inl hxv), hxs⟩
        rw [insert_map_some hbg, hvv, btGet_btInsert_self]
      · exact ⟨v, by rw [insert_map_some hbg, btGet_btInsert_ne _ _ _ hk]; exact hv,
          x, hxv, hxs⟩

theorem revSound_foldl :
    ∀ (l : List SeriesSpec) (m : SeriesSpecMap), RevSound m →
      RevSound (l.foldl SeriesSpecMap.insert m)
  | [], _, h => h
  | s :: rest, m, h => revSound_foldl rest (m.insert s) (revSound_insert h s)

theorem mapSound_new : MapSound SeriesSpecMap.new := by
  intro k v h
  simp [SeriesSpecMap.new, btGet] at h

theorem mapSound_insert {m : SeriesSpecMap} (hB : BucketInv m) (hM : MapSound m)
    {s : SeriesSpec}
    (huniq : ∀ x, memRecords x m → x.series_id = s.series_id → x.key = s.key) :
    MapSound (m.insert s) := by
  intro k v hkv x hx
  rw [insert_reverse]
  by_cases hsid : x.series_id = s.series_id
  · rw [hsid, btGet_btInsert_self]
    by_cases hk : k = s.key
    · rw [hk]
    · exfalso
      cases hbg : btGet s.key m.map with
      | none =>
        rw [insert_map_none hbg, btGet_btInsert_ne _ _ _ hk] at hkv
        exact hk ((hB k v hkv x hx ▸ huniq x ⟨k, v, hkv, hx⟩ hsid).symm ▸ rfl)
      | some value =>
        rw [insert_map_some hbg, btGet_btInsert_ne _ _ _ hk] at hkv
        exact hk ((hB k v hkv x hx ▸ huniq x ⟨k, v, hkv, hx⟩ hsid).symm ▸ rfl)
  · rw [btGet_btInsert_ne _ _ _ hsid]
    cases hbg : btGet s.key m.map with
    | none =>
      by_cases hk : k = s.key
      · subst hk
        rw [insert_map_none hbg, btGet_btInsert_self] at hkv
        obtain rfl : v = [s] := by injection hkv with h; exact h.symm
        obtain rfl : x = s := List.mem_singleton.mp hx
        exact absurd rfl hsid
      · rw [insert_map_none hbg, btGet_btInsert_ne _ _ _ hk] at hkv
        exact hM k v hkv x hx
    | some value =>
      by_cases hk : k = s.key
      · subst hk
        rw [insert_map_some hbg, btGet_btInsert_self] at hkv
        obtain rfl : v = value ++ [s] := by injection hkv with h; exact h.symm
        rcases List.mem_append.mp hx with h | h
        · exact hM _ _ hbg x h
        · obtain rfl : x = s := List.mem_singleton.mp h
          exact absurd rfl hsid
      · rw [insert_map_some hbg, btGet_btInsert_ne _ _ _ hk] at hkv
        exact hM k v hkv x hx

theorem mapSound_foldl :
    ∀ (l : List SeriesSpec) (m : SeriesSpecMap), BucketInv m → MapSound m →
      (∀ x s, memRecords x m → s ∈ l → x.series_id = s.series_id → x.key = s.key) →
      (∀ a ∈ l, ∀ b ∈ l, a.series_id = b.series_id → a.key = b.key) →
      MapSound (l.foldl SeriesSpecMap.insert m)
  | [], _, _, hM, _, _ => hM
  | s :: rest, m, hB, hM, hcross, hl => by
    refine mapSound_foldl rest (m.insert s) (bucketInv_insert hB s)
      (mapSound_insert hB hM
        (fun x hx hsid => hcross x s hx (List.mem_cons_self s rest) hsid))
      ?_ ?_
    · intro x t hx ht hsid
      rcases memRecords_insert hx with h | h
      · exact hcross x t h (List.mem_cons_of_mem s ht) hsid
      · subst h
        exact hl x (List.mem_cons_self x rest) t (List.mem_cons_of_mem x ht) hsid
    · intro a ha b hb
      exact hl a (List.mem_cons_of_mem s ha) b (List.mem_cons_of_mem s hb)

/-- C3 amended: reverse-index consistency holds in one direction
unconditionally and in the other only for duplicate-free inputs.  For every map
built by inserts from `new`: (converse) every key of the reverse map names a
bucket whose sequence contains a record with that identifier; (forward)
provided no two inserted records share a `series_id` under different
`(DataType, Country)` keys, every identifier appearing in a bucket is sent by
the reverse map to exactly that bucket.  The unconditional forward direction is
refuted by the counterexample. -/
theorem reverse_index_consistency_amended (l : List SeriesSpec) :
    (∀ sid k, btGet sid (SeriesSpecMap.ofList l).reverse = some k →
      ∃ v, btGet k (SeriesSpecMap.ofList l).map = some v ∧ ∃ x ∈ v, x.series_id = sid) ∧
    ((∀ a ∈ l, ∀ b ∈ l, a.series_id = b.series_id → a.key = b.key) →
      ∀ k v, btGet k (SeriesSpecMap.ofList l).map = some v →
        ∀ x ∈ v, btGet x.series_id (SeriesSpecMap.ofList l).reverse = some k) := by
  constructor
  · exact revSound_foldl l SeriesSpecMap.new revSound_new
  · intro hl
    exact mapSound_foldl l SeriesSpecMap.new bucketInv_new mapSound_new
      (fun x s hx _ _ => absurd hx (by simp [memRecords, SeriesSpecMap.new, btGet]))
      hl

/-- Witness for the amended C3: two distinct identifiers inserted into the one
`(U, Australia)` bucket satisfy the duplicate-free hypothesis, and both
directions of consistency hold concretely. -/
theorem reverse_index_consistency_amended_witness :
    (∀ a ∈ [c3SpecA, ⟨.U, .Australia, ⟨"y"⟩⟩], ∀ b ∈ [c3SpecA, ⟨.U, .Australia, ⟨"y"⟩⟩],
      a.series_id = b.series_id → a.key = b.key) ∧
    btGet (SeriesId.mk "y")
        (SeriesSpecMap.ofList [c3SpecA, ⟨.U, .Australia, ⟨"y"⟩⟩]).reverse =
      some (DataType.U, Country.Australia) :=
  ⟨by decide, by
    have h := (reverse_index_consistency_amended [c3SpecA, ⟨.U, .Australia, ⟨"y"⟩⟩]).2
      (by decide) (DataType.U, Country.Australia) [c3SpecA, ⟨.U, .Australia, ⟨"y"⟩⟩]
      (by decide) ⟨.U, .Australia, ⟨"y"⟩⟩ (by decide)
    exact h⟩

-- ====================================================================================
-- C8
-- ====================================================================================

theorem resumeAfter_eq_none {last : SeriesId} :
    ∀ {l : List SeriesSpec}, (∀ s ∈ l, s.series_id ≠ last) → resumeAfter last l = none
  | [], _ => rfl
  | s :: rest, h => by
    have hs : s.series_id ≠ last := h s (List.mem_cons_self s rest)
    simp only [resumeAfter, if_neg hs]
    exact resumeAfter_eq_none (fun x hx => h x (List.mem_cons_of_mem s hx))

theorem resumeAfter_append {last : SeriesId} {s : SeriesSpec} {post : List SeriesSpec}
    (hs : s.series_id = last) :
    ∀ (pre : List SeriesSpec), (∀ x ∈ pre, x.series_id ≠ last) →
      resumeAfter last (pre ++ s :: post) = some post
  | [], _ => by simp [resumeAfter, hs]
  | x :: rest, h => by
    have hx : x.series_id ≠ last := h x (List.mem_cons_self x rest)
    simp only [List.cons_append, resumeAfter, if_neg hx]
    exact resumeAfter_append hs rest (fun y hy => h y (List.mem_cons_of_mem x hy))

/-- C8: resume semantics (modelled from the spec, §4.3) — `resume_from` applied
to an index and `last_series_id` returns exactly the records that come strictly
after the first record carrying `last_series_id` in the index's deterministic
bucket order; when no record of the index carries `last_series_id`, it returns
the `UndefinedResumePoint` error rather than defaulting to the start or the
end. -/
theorem resume_from_spec (m : SeriesSpecMap) (last : SeriesId) :
    ((∀ s ∈ m.inOrder, s.series_id ≠ last) →
      m.resume_from last = .error (.UndefinedResumePoint last)) ∧
    (∀ pre s post, m.inOrder = pre ++ s :: post → s.series_id = last →
      (∀ x ∈ pre, x.series_id ≠ last) → m.resume_from last = .ok post) := by
  constructor
  · intro h
    unfold SeriesSpecMap.resume_from
    rw [resumeAfter_eq_none h]
  · intro pre s post hsplit hs hpre
    unfold SeriesSpecMap.resume_from
    rw [hsplit, resumeAfter_append hs pre hpre]

/-- Witness for C8, the spec's own example: with buckets
`(U, Australia) = [a, b]`, `(U, Belgium) = [c, d]`, `(Cpi, Australia) = [e]`
in deterministic order, resuming from `"c"` yields `[d, e]`, and resuming from
the absent `"z"` yields `UndefinedResumePoint("z")`. -/
theorem resume_from_spec_witness :
    (SeriesSpecMap.ofList [⟨.U, .Australia, ⟨"a"⟩⟩, ⟨.U, .Australia, ⟨"b"⟩⟩,
        ⟨.U, .Belgium, ⟨"c"⟩⟩, ⟨.U, .Belgium, ⟨"d"⟩⟩,
        ⟨.Cpi, .Australia, ⟨"e"⟩⟩]).inOrder =
      [⟨.U, .Australia, ⟨"a"⟩⟩, ⟨.U, .Australia, ⟨"b"⟩⟩, ⟨.U, .Belgium, ⟨"c"⟩⟩,
        ⟨.U, .Belgium, ⟨"d"⟩⟩, ⟨.Cpi, .Australia, ⟨"e"⟩⟩] ∧
    (SeriesSpecMap.ofList [⟨.U, .Australia, ⟨"a"⟩⟩, ⟨.U, .Australia, ⟨"b"⟩⟩,
        ⟨.U, .Belgium, ⟨"c"⟩⟩, ⟨.U, .Belgium, ⟨"d"⟩⟩,
        ⟨.Cpi, .Australia, ⟨"e"⟩⟩]).resume_from ⟨"c"⟩ =
      .ok [⟨.U, .Belgium, ⟨"d"⟩⟩, ⟨.Cpi, .Australia, ⟨"e"⟩⟩] ∧
    (SeriesSpecMap.ofList [⟨.U, .Australia, ⟨"a"⟩⟩, ⟨.U, .Australia, ⟨"b"⟩⟩,
        ⟨.U, .Belgium, ⟨"c"⟩⟩, ⟨.U, .Belgium, ⟨"d"⟩⟩,
        ⟨.Cpi, .Australia, ⟨"e"⟩⟩]).resume_from ⟨"z"⟩ =
      .error (.UndefinedResumePoint ⟨"z"⟩) :=
  ⟨by decide,
    (resume_from_spec (SeriesSpecMap.ofList [⟨.U, .Australia, ⟨"a"⟩⟩,
        ⟨.U, .Australia, ⟨"b"⟩⟩, ⟨.U, .Belgium, ⟨"c"⟩⟩, ⟨.U, .Belgium, ⟨"d"⟩⟩,
        ⟨.Cpi, .Australia, ⟨"e"⟩⟩]) ⟨"c"⟩).2
      [⟨.U, .Australia, ⟨"a"⟩⟩, ⟨.U, .Australia, ⟨"b"⟩⟩] ⟨.U, .Belgium, ⟨"c"⟩⟩
      [⟨.U, .Belgium, ⟨"d"⟩⟩, ⟨.Cpi, .Australia, ⟨"e"⟩⟩]
      (by decide) (by decide) (by decide),
    (resume_from_spec (SeriesSpecMap.ofList [⟨.U, .Australia, ⟨"a"⟩⟩,
        ⟨.U, .Australia, ⟨"b"⟩⟩, ⟨.U, .Belgium, ⟨"c"⟩⟩, ⟨.U, .Belgium, ⟨"d"⟩⟩,
        ⟨.Cpi, .Australia, ⟨"e"⟩⟩]) ⟨"z"⟩).1 (by decide)⟩

-- ====================================================================================
-- C9
-- ====================================================================================

theorem takeWhile_no_underscore (b : List Char) (h : '_' ∉ b) :
    b.takeWhile (fun c => c ≠ '_') = b := by
  induction b with
  | nil => rfl
  | cons c t ih =>
    have hc : c ≠ '_' := fun hx => h (hx ▸ List.mem_cons_self c t)
    rw [List.takeWhile_cons, if_pos (by simpa using hc),
      ih (fun hx => h (List.mem_cons_of_mem c hx))]

theorem takeWhile_underscore_append (t : List Char) (b : List Char) (h : '_' ∉ b) :
    (b ++ '_' :: t).takeWhile (fun c => c ≠ '_') = b := by
  induction b with
  | nil => simp
  | cons c b ih =>
    have hc : c ≠ '_' := fun hx => h (hx ▸ List.mem_cons_self c b)
    rw [List.cons_append, List.takeWhile_cons, if_pos (by simpa using hc),
      ih (fun hx => h (List.mem_cons_of_mem c hx))]

/-- C9: `SeriesId::stem` strips the trailing transformation suffix — for every
base string `b` containing no underscore and every suffix `s`, the stem of the
identifier `b_s` is the identifier `b`; and the stem of any identifier
containing no underscore is the identifier itself. -/
theorem series_id_stem_strips_suffix :
    (∀ b s : String, '_' ∉ b.data → SeriesId.stem ⟨b ++ "_" ++ s⟩ = ⟨b⟩) ∧
    (∀ i : String, '_' ∉ i.data → SeriesId.stem ⟨i⟩ = ⟨i⟩) := by
  constructor
  · intro b s hb
    unfold SeriesId.stem
    have hd : (b ++ "_" ++ s).data = b.data ++ ('_' :: s.data) := by
      rw [String.data_append, String.data_append]
      have h1 : ("_" : String).data = ['_'] := rfl
      rw [h1, List.append_assoc]
      rfl
    simp only [hd, takeWhile_underscore_append s.data b.data hb]
  · intro i hi
    unfold SeriesId.stem
    simp only [takeWhile_no_underscore i.data hi]

/-- Witness for C9: the stem of `AUSURAMS_adj` is `AUSURAMS`, and the stem of
the underscore-free `AUSURAMS` is itself. -/
theorem series_id_stem_strips_suffix_witness :
    '_' ∉ "AUSURAMS".data ∧
    SeriesId.stem ⟨"AUSURAMS" ++ "_" ++ "adj"⟩ = ⟨"AUSURAMS"⟩ ∧
    SeriesId.stem ⟨"AUSURAMS"⟩ = ⟨"AUSURAMS"⟩ :=
  ⟨by decide,
    series_id_stem_strips_suffix.1 "AUSURAMS" "adj" (by decide),
    series_id_stem_strips_suffix.2 "AUSURAMS" (by decide)⟩

-- ====================================================================================
-- Helper lemmas: paths and resources
-- ====================================================================================

theorem pathExtension_concat (d : Path) (name : String) :
    pathExtension (d ++ [name]) = extensionOfName name := by
  simp [pathExtension, List.getLast?_concat]

theorem only_ext_eq_ok (r : Resources) (allowed : List String)
    (h : r.paths.find? (fun pb =>
      match pathExtension pb with
      | none => false
      | some e => !(allowed.contains e)) = none) :
    r.only_ext allowed = .ok () := by
  unfold Resources.only_ext
  rw [h]

theorem only_ext_eq_error (r : Resources) (allowed : List String) (pb : Path)
    (h : r.paths.find? (fun pb =>
      match pathExtension pb with
      | none => false
      | some e => !(allowed.contains e)) = some pb) :
    r.only_ext allowed =
      .error (.ExtensionContamination ((r.paths.headD []).dropLast)
        ((pathExtension pb).getD "")) := by
  unfold Resources.only_ext
  rw [h]

theorem headD_map_dropLast (d : Path) (listing : List String) (h : listing ≠ []) :
    (((listing.map (fun name => d ++ [name])).headD []).dropLast) = d := by
  cases listing with
  | nil => exact absurd rfl h
  | cons n rest => simp [List.headD, List.dropLast_concat]

theorem filter_by_ext_listing (d : Path) (listing : List String) (kept : List String) :
    Resources.filter_by_ext ⟨listing.map (fun name => d ++ [name])⟩ kept =
      ⟨(listing.filter (fun name =>
        match extensionOfName name with
        | none => false
        | some e => kept.contains e)).map (fun name => d ++ [name])⟩ := by
  unfold Resources.filter_by_ext
  congr 1
  rw [List.filter_map]
  congr 1
  apply List.filter_congr
  intro name _
  show (match pathExtension (d ++ [name]) with
    | none => false
    | some e => kept.contains e) = _
  rw [pathExtension_concat]

theorem isSuffixOf_singleton_iff (a : String) (l : List String) :
    List.isSuffixOf [a] l = true ↔ l.getLast? = some a := by
  rw [List.isSuffixOf_iff_suffix, List.getLast?_eq_some_iff]
  constructor
  · rintro ⟨t, rfl⟩
    exact ⟨t, rfl⟩
  · rintro ⟨t, rfl⟩
    exact ⟨t, rfl⟩

-- ====================================================================================
-- C6
-- ====================================================================================

/-- C6: `has_file` matches by trailing path component only — for every resource
kind and root for which `into_resources` succeeds with resource set `r`,
`has_file root [name]` (a single-component file name) returns `Ok` of exactly
the proposition that some path of `r` has final component `name`, regardless of
the rest of the path. -/
theorem has_file_trailing_component (k : ResourceKind) (fs : FileSystem) (root : Path)
    (name : String) (r : Resources) (h : k.intoResources fs root = .ok r) :
    k.has_file fs root [name] = .ok (decide (∃ pb ∈ r.paths, pb.getLast? = some name)) := by
  unfold ResourceKind.has_file
  rw [h]
  show Except.ok (r.paths.any fun pb => pathEndsWith pb [name]) = _
  have hpoint : ∀ pb : Path, pathEndsWith pb [name] = decide (pb.getLast? = some name) := by
    intro pb
    unfold pathEndsWith
    by_cases hl : pb.getLast? = some name
    · simp [hl, (isSuffixOf_singleton_iff name pb).mpr hl]
    · simp only [hl, decide_False]
      rcases hsuf : List.isSuffixOf [name] pb with _ | _
      · rfl
      · exact absurd ((isSuffixOf_singleton_iff name pb).mp hsuf) hl
  by_cases hex : ∃ pb ∈ r.paths, pb.getLast? = some name
  · obtain ⟨pb, hmem, hlast⟩ := hex
    have hany : r.paths.any (fun pb => pathEndsWith pb [name]) = true :=
      List.any_eq_true.mpr ⟨pb, hmem, by rw [hpoint]; exact decide_eq_true hlast⟩
    rw [hany, decide_eq_true ⟨pb, hmem, hlast⟩]
  · have hany : r.paths.any (fun pb => pathEndsWith pb [name]) = false := by
      rw [← Bool.not_eq_true, List.any_eq_true]
      rintro ⟨pb, hmem, hp⟩
      rw [hpoint] at hp
      exact hex ⟨pb, hmem, of_decide_eq_true hp⟩
    rw [hany, decide_eq_false hex]

/-- Witness for C6: the CSS kind on a filesystem whose `pid_graphics/css`
directory exists resolves to `style.css`, and `has_file` finds it by its
trailing component. -/
theorem has_file_trailing_component_witness :
    ResourceKind.intoResources
        ⟨PidGraphicCss.dir, PidGraphicCss.into_resources⟩
        ⟨[(["root", "pid_graphics", "css"], ["style.css"])]⟩ ["root"] =
      .ok ⟨[["root", "pid_graphics", "css", "style.css"]]⟩ ∧
    ResourceKind.has_file ⟨PidGraphicCss.dir, PidGraphicCss.into_resources⟩
        ⟨[(["root", "pid_graphics", "css"], ["style.css"])]⟩ ["root"] ["style.css"] =
      .ok (decide (∃ pb ∈ Resources.paths ⟨[["root", "pid_graphics", "css", "style.css"]]⟩,
        pb.getLast? = some "style.css")) :=
  ⟨rfl,
    has_file_trailing_component ⟨PidGraphicCss.dir, PidGraphicCss.into_resources⟩
      ⟨[(["root", "pid_graphics", "css"], ["style.css"])]⟩ ["root"] "style.css"
      ⟨[["root", "pid_graphics", "css", "style.css"]]⟩ rfl⟩

-- ====================================================================================
-- C4
-- ====================================================================================

theorem only_ext_listing_ok (d : Path) (listing : List String) (allowed : List String)
    (h : ∀ name ∈ listing, ∀ e, extensionOfName name = some e → e ∈ allowed) :
    Resources.only_ext ⟨listing.map (fun name => d ++ [name])⟩ allowed = .ok () := by
  apply only_ext_eq_ok
  rw [List.find?_eq_none]
  intro pb hpb
  obtain ⟨name, hname, rfl⟩ := List.mem_map.mp hpb
  show ¬ (match pathExtension (d ++ [name]) with
    | none => false
    | some e => !(allowed.contains e)) = true
  rw [pathExtension_concat]
  cases he : extensionOfName name with
  | none => simp
  | some e =>
    have hmem := h name hname e he
    simp [List.elem_iff, hmem]

theorem only_ext_listing_error (d : Path) (listing : List String) (allowed : List String)
    (h : ∃ name ∈ listing, ∃ e, extensionOfName name = some e ∧ e ∉ allowed) :
    ∃ e1, (∃ name ∈ listing, extensionOfName name = some e1 ∧ e1 ∉ allowed) ∧
      Resources.only_ext ⟨listing.map (fun name => d ++ [name])⟩ allowed =
        .error (.ExtensionContamination d e1) := by
  obtain ⟨name0, hn0, e0, he0, hbad0⟩ := h
  have hne : listing ≠ [] := by
    rintro rfl
    exact List.not_mem_nil name0 hn0
  have hex : ∃ pb ∈ listing.map (fun name => d ++ [name]),
      (fun pb => match pathExtension pb with
        | none => false
        | some e => !(allowed.contains e)) pb = true := by
    refine ⟨d ++ [name0], List.mem_map.mpr ⟨name0, hn0, rfl⟩, ?_⟩
    show (match pathExtension (d ++ [name0]) with
      | none => false
      | some e => !(allowed.contains e)) = true
    rw [pathExtension_concat, he0]
    simpa [List.elem_iff] using hbad0
  obtain ⟨pb1, hpb1⟩ := Option.isSome_iff_exists.mp (List.find?_isSome.mpr hex)
  obtain ⟨name1, hname1, rfl⟩ := List.mem_map.mp (List.mem_of_find?_eq_some hpb1)
  have hp1 := List.find?_some hpb1
  simp only at hp1
  cases he1 : extensionOfName name1 with
  | none =>
    rw [pathExtension_concat, he1] at hp1
    exact absurd hp1 (by simp)
  | some e1 =>
    rw [pathExtension_concat, he1] at hp1
    have hbad1 : e1 ∉ allowed := by
      intro hmem
      simp [List.elem_iff] at hp1
      exact hp1 hmem
    refine ⟨e1, ⟨name1, hname1, he1, hbad1⟩, ?_⟩
    rw [only_ext_eq_error _ _ _ hpb1]
    show Except.error (ResError.ExtensionContamination
      (((listing.map (fun name => d ++ [name])).headD []).dropLast)
      ((pathExtension (d ++ [name1])).getD "")) = _
    rw [headD_map_dropLast d listing hne, pathExtension_concat, he1]
    rfl

theorem csvRawData_into_resources_unfold (cd : CsvRawData) (fs : FileSystem)
    (data_root : Path) (d : Path) (listing : List String)
    (hdir : cd.dir fs data_root = .ok d) (hls : fs.readDir d = some listing) :
    cd.into_resources fs data_root =
      (match Resources.only_ext ⟨listing.map (fun name => d ++ [name])⟩ ["csv", "meta"] with
       | .error e => .error e
       | .ok _ => .ok (Resources.filter_by_ext
          ⟨listing.map (fun name => d ++ [name])⟩ ["csv"])) := by
  unfold CsvRawData.into_resources allFilesInDir
  rw [hdir]
  show (match (match fs.readDir d with
      | none => Except.error (ResError.Io d)
      | some listing => Except.ok (Resources.mk (listing.map (fun name => d ++ [name])))) with
    | Except.error e => Except.error e
    | Except.ok all =>
      match all.only_ext ["csv", "meta"] with
      | Except.error e => Except.error e
      | Except.ok _ => Except.ok (all.filter_by_ext ["csv"])) = _
  rw [hls]

/-- C4: extension contamination fails the whole raw-data directory — whenever
`CsvRawData`'s directory resolves with listing `listing`, if any file inside
has an extension outside `{csv, meta}` then `into_resources` returns the
`ExtensionContamination` error naming an offending extension and the directory
(and no subset of files); if every file's extension is in `{csv, meta}`, it
succeeds and returns exactly the files with extension `csv`. -/
theorem csv_raw_data_extension_contamination (cd : CsvRawData) (fs : FileSystem)
    (data_root : Path) (d : Path) (listing : List String)
    (hdir : cd.dir fs data_root = .ok d) (hls : fs.readDir d = some listing) :
    ((∃ name ∈ listing, ∃ e, extensionOfName name = some e ∧ e ∉ ["csv", "meta"]) →
      ∃ e1, (∃ name ∈ listing, extensionOfName name = some e1 ∧ e1 ∉ ["csv", "meta"]) ∧
        cd.into_resources fs data_root = .error (.ExtensionContamination d e1)) ∧
    ((∀ name ∈ listing, ∀ e, extensionOfName name = some e → e ∈ ["csv", "meta"]) →
      cd.into_resources fs data_root =
        .ok ⟨(listing.filter (fun name =>
          match extensionOfName name with
          | none => false
          | some e => ["csv"].contains e)).map (fun name => d ++ [name])⟩) := by
  constructor
  · intro h
    obtain ⟨e1, hprop, herr⟩ := only_ext_listing_error d listing ["csv", "meta"] h
    refine ⟨e1, hprop, ?_⟩
    rw [csvRawData_into_resources_unfold cd fs data_root d listing hdir hls, herr]
  · intro h
    rw [csvRawData_into_resources_unfold cd fs data_root d listing hdir hls,
      only_ext_listing_ok d listing ["csv", "meta"] h]
    show Except.ok (Resources.filter_by_ext ⟨listing.map (fun name => d ++ [name])⟩ ["csv"]) = _
    rw [filter_by_ext_listing]

/-- Witness for C4, both directions: a directory holding `{a.csv, b.txt}`
fails with `ExtensionContamination` naming extension `txt` and the directory,
while a directory holding `{a.csv, b.meta}` succeeds returning exactly
`a.csv`. -/
theorem csv_raw_data_extension_contamination_witness :
    CsvRawData.into_resources ⟨Country.Australia, DataType.U⟩
        ⟨[(["root", "raw_data", "u", "australia"], ["a.csv", "b.txt"])]⟩ ["root"] =
      .error (.ExtensionContamination ["root", "raw_data", "u", "australia"] "txt") ∧
    CsvRawData.into_resources ⟨Country.Australia, DataType.U⟩
        ⟨[(["root", "raw_data", "u", "australia"], ["a.csv", "b.meta"])]⟩ ["root"] =
      .ok ⟨[["root", "raw_data", "u", "australia", "a.csv"]]⟩ := by
  constructor
  · obtain ⟨e1, ⟨name1, hmem1, hext1, hbad1⟩, herr⟩ :=
      (csv_raw_data_extension_contamination ⟨Country.Australia, DataType.U⟩
        ⟨[(["root", "raw_data", "u", "australia"], ["a.csv", "b.txt"])]⟩ ["root"]
        ["root", "raw_data", "u", "australia"] ["a.csv", "b.txt"] rfl rfl).1
      ⟨"b.txt", by decide, "txt", by decide, by decide⟩
    have he1 : e1 = "txt" := by
      have hcsv : extensionOfName "a.csv" = some "csv" := by decide
      have htxt : extensionOfName "b.txt" = some "txt" := by decide
      simp only [List.mem_cons, List.mem_singleton, List.not_mem_nil, or_false] at hmem1
      rcases hmem1 with rfl | rfl
      · rw [hcsv] at hext1
        have he : e1 = "csv" := (Option.some.inj hext1).symm
        subst he
        exact absurd (by decide) hbad1
      · rw [htxt] at hext1
        exact (Option.some.inj hext1).symm
    rw [he1] at herr
    exact herr
  · have h :=
      (csv_raw_data_extension_contamination ⟨Country.Australia, DataType.U⟩
        ⟨[(["root", "raw_data", "u", "australia"], ["a.csv", "b.meta"])]⟩ ["root"]
        ["root", "raw_data", "u", "australia"] ["a.csv", "b.meta"] rfl rfl).2
      (by decide)
    rw [h]
    rfl

-- ====================================================================================
-- C10
-- ====================================================================================

theorem pidGraphicsJs_into_resources_unfold (fs : FileSystem) (data_root : Path)
    (d : Path) (listing : List String)
    (hdir : PidGraphicsJs.dir fs data_root = .ok d) (hls : fs.readDir d = some listing) :
    PidGraphicsJs.into_resources fs data_root =
      (match Resources.only_ext ⟨listing.map (fun name => d ++ [name])⟩ ["js"] with
       | .error e => .error e
       | .ok _ => .ok (Resources.filter_by_ext
          ⟨listing.map (fun name => d ++ [name])⟩ ["js"])) := by
  unfold PidGraphicsJs.into_resources allFilesInDir
  rw [hdir]
  show (match (match fs.readDir d with
      | none => Except.error (ResError.Io d)
      | some listing => Except.ok (Resources.mk (listing.map (fun name => d ++ [name])))) with
    | Except.error e => Except.error e
    | Except.ok all =>
      match all.only_ext ["js"] with
      | Except.error e => Except.error e
      | Except.ok _ => Except.ok (all.filter_by_ext ["js"])) = _
  rw [hls]

theorem not_mem_filter_listing_of_ext_none {d : Path} {listing kept : List String}
    {name : String} (hnone : extensionOfName name = none) :
    (d ++ [name]) ∉ ((listing.filter (fun n =>
      match extensionOfName n with
      | none => false
      | some e => kept.contains e)).map (fun n => d ++ [n])) := by
  intro hmem
  obtain ⟨n2, hn2, heq⟩ := List.mem_map.mp hmem
  obtain rfl : n2 = name := by
    have h2 : [n2] = [name] := List.append_cancel_left heq
    exact List.singleton_injective h2
  have hq := (List.mem_filter.mp hn2).2
  rw [hnone] at hq
  exact absurd hq (by simp)

/-- C10: files without an extension are silently dropped, not reported — for
the extension-checked kinds `CsvRawData` and `PidGraphicsJs`, whenever the
resolved directory's listing contains only files that either carry a permitted
extension or carry no extension at all, `into_resources` succeeds, and the
extensionless files appear nowhere in the returned resource set: they neither
trip `only_ext` nor pass `filter_by_ext`. -/
theorem extensionless_files_silently_dropped :
    (∀ (cd : CsvRawData) (fs : FileSystem) (data_root d : Path) (listing : List String),
      cd.dir fs data_root = .ok d → fs.readDir d = some listing →
      (∀ name ∈ listing, ∀ e, extensionOfName name = some e → e ∈ ["csv", "meta"]) →
      ∃ r, cd.into_resources fs data_root = .ok r ∧
        ∀ name ∈ listing, extensionOfName name = none → (d ++ [name]) ∉ r.paths) ∧
    (∀ (fs : FileSystem) (data_root d : Path) (listing : List String),
      PidGraphicsJs.dir fs data_root = .ok d → fs.readDir d = some listing →
      (∀ name ∈ listing, ∀ e, extensionOfName name = some e → e ∈ ["js"]) →
      ∃ r, PidGraphicsJs.into_resources fs data_root = .ok r ∧
        ∀ name ∈ listing, extensionOfName name = none → (d ++ [name]) ∉ r.paths) := by
  constructor
  · intro cd fs data_root d listing hdir hls hext
    refine ⟨⟨(listing.filter (fun name =>
      match extensionOfName name with
      | none => false
      | some e => List.contains ["csv"] e)).map (fun name => d ++ [name])⟩, ?_, ?_⟩
    · rw [csvRawData_into_resources_unfold cd fs data_root d listing hdir hls,
        only_ext_listing_ok d listing ["csv", "meta"] hext]
      show Except.ok (Resources.filter_by_ext
        ⟨listing.map (fun name => d ++ [name])⟩ ["csv"]) = _
      rw [filter_by_ext_listing]
    · intro name _ hnone
      exact not_mem_filter_listing_of_ext_none hnone
  · intro fs data_root d listing hdir hls hext
    refine ⟨⟨(listing.filter (fun name =>
      match extensionOfName name with
      | none => false
      | some e => List.contains ["js"] e)).map (fun name => d ++ [name])⟩, ?_, ?_⟩
    · rw [pidGraphicsJs_into_resources_unfold fs data_root d listing hdir hls,
        only_ext_listing_ok d listing ["js"] hext]
      show Except.ok (Resources.filter_by_ext
        ⟨listing.map (fun name => d ++ [name])⟩ ["js"]) = _
      rw [filter_by_ext_listing]
    · intro name _ hnone
      exact not_mem_filter_listing_of_ext_none hnone

/-- Witness for C10: a raw-data directory listing `{a.csv, README}` (where
`README` has no extension) succeeds and the returned set omits `README`; a js
directory listing `{t.js, LICENSE}` likewise omits `LICENSE`. -/
theorem extensionless_files_silently_dropped_witness :
    (CsvRawData.into_resources ⟨Country.Australia, DataType.U⟩
        ⟨[(["root", "raw_data", "u", "australia"], ["a.csv", "README"])]⟩ ["root"] =
        .ok ⟨[["root", "raw_data", "u", "australia", "a.csv"]]⟩ ∧
      (["root", "raw_data", "u", "australia"] ++ ["README"]) ∉
        Resources.paths ⟨[["root", "raw_data", "u", "australia", "a.csv"]]⟩) ∧
    (PidGraphicsJs.into_resources
        ⟨[(["root", "pid_graphics", "js"], ["t.js", "LICENSE"])]⟩ ["root"] =
        .ok ⟨[["root", "pid_graphics", "js", "t.js"]]⟩ ∧
      (["root", "pid_graphics", "js"] ++ ["LICENSE"]) ∉
        Resources.paths ⟨[["root", "pid_graphics", "js", "t.js"]]⟩) := by
  constructor
  · obtain ⟨r, hok, hdrop⟩ := extensionless_files_silently_dropped.1
      ⟨Country.Australia, DataType.U⟩
      ⟨[(["root", "raw_data", "u", "australia"], ["a.csv", "README"])]⟩ ["root"]
      ["root", "raw_data", "u", "australia"] ["a.csv", "README"] rfl rfl (by decide)
    have h2 : CsvRawData.into_resources ⟨Country.Australia, DataType.U⟩
        ⟨[(["root", "raw_data", "u", "australia"], ["a.csv", "README"])]⟩ ["root"] =
        .ok ⟨[["root", "raw_data", "u", "australia", "a.csv"]]⟩ := rfl
    have hr : r = ⟨[["root", "raw_data", "u", "australia", "a.csv"]]⟩ := by
      rw [h2] at hok
      injection hok with h
      exact h.symm
    refine ⟨h2, ?_⟩
    have hd := hdrop "README" (by decide) (by decide)
    rw [hr] at hd
    exact hd
  · obtain ⟨r, hok, hdrop⟩ := extensionless_files_silently_dropped.2
      ⟨[(["root", "pid_graphics", "js"], ["t.js", "LICENSE"])]⟩ ["root"]
      ["root", "pid_graphics", "js"] ["t.js", "LICENSE"] rfl rfl (by decide)
    have h2 : PidGraphicsJs.into_resources
        ⟨[(["root", "pid_graphics", "js"], ["t.js", "LICENSE"])]⟩ ["root"] =
        .ok ⟨[["root", "pid_graphics", "js", "t.js"]]⟩ := rfl
    have hr : r = ⟨[["root", "pid_graphics", "js", "t.js"]]⟩ := by
      rw [h2] at hok
      injection hok with h
      exact h.symm
    refine ⟨h2, ?_⟩
    have hd := hdrop "LICENSE" (by decide) (by decide)
    rw [hr] at hd
    exact hd

-- ====================================================================================
-- C7
-- ====================================================================================

/-- C7 counterexample: on a filesystem whose `pid_graphics/css` directory
exists but is empty, `PidGraphicCss::into_resources` succeeds and returns the
path `root/pid_graphics/css/style.css` even though that file does not exist —
refuting "every Resource is an existing file". -/
theorem resource_exists_counterexample :
    PidGraphicCss.into_resources ⟨[(["root", "pid_graphics", "css"], [])]⟩ ["root"] =
      .ok ⟨[["root", "pid_graphics", "css", "style.css"]]⟩ ∧
    FileSystem.fileExists ⟨[(["root", "pid_graphics", "css"], [])]⟩
      ["root", "pid_graphics", "css", "style.css"] = false :=
  ⟨rfl, rfl⟩

theorem fileExists_concat (fs : FileSystem) (d : Path) (name : String)
    (listing : List String) (hls : fs.readDir d = some listing) (hmem : name ∈ listing) :
    fs.fileExists (d ++ [name]) = true := by
  unfold FileSystem.fileExists
  rw [List.getLast?_concat, List.dropLast_concat, hls]
  show listing.contains name = true
  exact List.elem_iff.mpr hmem

/-- C7 amended: every path returned by the directory-listing kind `CsvRawData`
is an existing file, but the fixed-name kinds do not check existence —
`PidGraphicCss::into_resources` returns `dir/style.css` whenever the css
directory resolves, whether or not that file exists (the counterexample shows a
run where it does not). -/
theorem resources_exist_amended :
    (∀ (cd : CsvRawData) (fs : FileSystem) (data_root d : Path) (listing : List String)
      (r : Resources),
      cd.dir fs data_root = .ok d → fs.readDir d = some listing →
      cd.into_resources fs data_root = .ok r →
      ∀ p ∈ r.paths, fs.fileExists p = true) ∧
    (∀ (fs : FileSystem) (data_root d : Path),
      PidGraphicCss.dir fs data_root = .ok d →
      PidGraphicCss.into_resources fs data_root = .ok ⟨[d ++ ["style.css"]]⟩) := by
  constructor
  · intro cd fs data_root d listing r hdir hls hok p hp
    rw [csvRawData_into_resources_unfold cd fs data_root d listing hdir hls] at hok
    cases ho : Resources.only_ext ⟨listing.map (fun name => d ++ [name])⟩ ["csv", "meta"] with
    | error e =>
      rw [ho] at hok
      simp at hok
    | ok u =>
      rw [ho] at hok
      have hr : Resources.filter_by_ext ⟨listing.map (fun name => d ++ [name])⟩ ["csv"] = r := by
        injection hok
      rw [filter_by_ext_listing] at hr
      rw [← hr] at hp
      obtain ⟨name, hname, rfl⟩ := List.mem_map.mp hp
      exact fileExists_concat fs d name listing hls
        ((List.mem_filter.mp hname).1)
  · intro fs data_root d hdir
    unfold PidGraphicCss.into_resources
    rw [hdir]

/-- Witness for the amended C7: on a filesystem holding `a.csv` in the
raw-data directory, the returned resource exists on disk; and on the
counterexample filesystem the css kind still returns `style.css` although the
directory is empty. -/
theorem resources_exist_amended_witness :
    FileSystem.fileExists ⟨[(["root", "raw_data", "u", "australia"], ["a.csv"])]⟩
      ["root", "raw_data", "u", "australia", "a.csv"] = true ∧
    PidGraphicCss.into_resources ⟨[(["root", "pid_graphics", "css"], [])]⟩ ["root"] =
      .ok ⟨[["root", "pid_graphics", "css", "style.css"]]⟩ :=
  ⟨resources_exist_amended.1 ⟨Country.Australia, DataType.U⟩
      ⟨[(["root", "raw_data", "u", "australia"], ["a.csv"])]⟩ ["root"]
      ["root", "raw_data", "u", "australia"] ["a.csv"]
      ⟨[["root", "raw_data", "u", "australia", "a.csv"]]⟩ rfl rfl rfl
      ["root", "raw_data", "u", "australia", "a.csv"] (by decide),
    resources_exist_amended.2 ⟨[(["root", "pid_graphics", "css"], [])]⟩ ["root"]
      ["root", "pid_graphics", "css"] rfl⟩

end GraphicsPipeline
